import Mathlib

/-!
Verification of the struct-log call-gas calculator
(`eth/tracers/logger/struct_log_call_gas_calc.py`).

The script walks an EVM struct-log trace once, opens a monitoring window at
the first step matching `(start_pc, depth)`, closes it (and stops) at a step
matching `(start_pc + 1, depth)`, tracks call frames opened at depth
`depth + 1`, and accumulates gas.  We embed the script shallowly: Python
integers become `Int`, the `call_stack` dict becomes an association list with
Python-dict semantics (updating an existing key keeps its position,
`pop` + re-insert moves it to the end), and the `for`-loop over
`active_calls` that removes elements during iteration is reproduced with
CPython's list-iterator semantics (the iterator holds an index; removing an
element at a position at or before the current one shifts the list left, so
the element directly after the current one is skipped).
-/

namespace StructLog

/-- One struct-log step record: `pc`, `depth`, `op`, `gas` (remaining gas
before the step) and `gasCost`.  Python integers are unbounded, so all
numeric fields are `Int`. -/
structure Log where
  pc : Int
  depth : Int
  op : String
  gas : Int
  gasCost : Int
deriving DecidableEq

/-- A call-frame descriptor, mirroring the `call_info` dict of the script.
The keys `gas_used`, `return_pc`, `return_depth` are only present once the
frame is matched to a return step, hence `Option`. -/
structure CallInfo where
  pc : Int
  depth : Int
  gas_at_call : Int
  op : String
  gas_used : Option Int
  return_pc : Option Int
  return_depth : Option Int
deriving DecidableEq

/-- A call-frame key: `(pc, depth)`. -/
abbrev Key := Int × Int

/-- The `call_stack` dict, as an association list in insertion order. -/
abbrev CallStack := List (Key × CallInfo)

/-- The six call-family opcodes (`stack_increasers` in the script). -/
def stack_increasers : List String :=
  ["CALL", "CALLCODE", "DELEGATECALL", "STATICCALL", "CREATE", "CREATE2"]

/-- Dict lookup: value of the first (only) entry with the given key. -/
def dictGet (s : CallStack) (k : Key) : Option CallInfo :=
  (s.find? fun e => decide (e.1 = k)).map (·.2)

/-- Dict `pop`: remove the entry with the given key. -/
def dictRemove (s : CallStack) (k : Key) : CallStack :=
  s.filter fun e => decide (e.1 ≠ k)

/-- Dict assignment `s[k] = v`: update in place when the key is present
(Python dicts keep the key's position), append otherwise. -/
def dictSet (s : CallStack) (k : Key) (v : CallInfo) : CallStack :=
  if s.any fun e => decide (e.1 = k) then
    s.map fun e => if e.1 = k then (k, v) else e
  else
    s ++ [(k, v)]

/-- `list.remove`: drop the first occurrence of an element. -/
def removeFirst : List Key → Key → List Key
  | [], _ => []
  | x :: xs, k => if x = k then xs else x :: removeFirst xs k

/-- Number of occurrences of a key in a key list. -/
def keyCount (l : List Key) (k : Key) : Nat :=
  (l.filter fun x => decide (x = k)).length

/-- State of the scan: the frame map, the active-key list, and the gas
accounting registers of `parse_struct_logs`. -/
structure St where
  callStack : CallStack
  activeCalls : List Key
  gas_sum : Int
  gas_start : Int
  gas_end : Int
  monitor : Bool
deriving DecidableEq

/-- Initial state of `parse_struct_logs`. -/
def initSt : St :=
  { callStack := [], activeCalls := [], gas_sum := 0, gas_start := 0, gas_end := 0, monitor := false }

/-- The finalized descriptor written back when a frame's return is matched:
`gas_used = gas_at_call - gas_now`, stamped with the return pc and depth. -/
def closeInfo (info : CallInfo) (cur_pc gasNow cur_depth : Int) : CallInfo :=
  { info with
    gas_used := some (info.gas_at_call - gasNow)
    return_pc := some cur_pc
    return_depth := some cur_depth }

/-- The `for call_key in active_calls:` return-matching loop of the script.

CPython semantics: the loop iterator keeps an index `i`; each iteration
yields `active_calls[i]` and increments `i`.  When the body matches a key it
pops that key from `call_stack`, re-inserts the finalized descriptor (net
effect: remove then append at the end), and `active_calls.remove(key)`
deletes the **first** occurrence of the key — which sits at or before the
yielded position, so the element immediately after the yielded one is never
yielded.  We reproduce this with `kept` = elements already passed over (in
order) and the remaining suffix: on a match, the first occurrence of the key
is deleted from `kept ++ [k]`, and the next element (if any) is moved to
`kept` unprocessed.  `dictGet` can never miss here on states produced by the
scan (keys are never removed from the frame map), matching the absence of a
`KeyError` in any run of the script; the `none` branch leaves the map
unchanged. -/
def runCalls (cur_pc gasNow cur_depth : Int) :
    List Key → List Key → CallStack → List Key × CallStack
  | kept, [], stack => (kept, stack)
  | kept, k :: rest, stack =>
    if cur_pc = k.1 + 1 then
      let stack' :=
        match dictGet stack k with
        | some info => dictRemove stack k ++ [(k, closeInfo info cur_pc gasNow cur_depth)]
        | none => stack
      let kept' := if k ∈ kept then removeFirst kept k ++ [k] else kept
      match rest with
      | [] => (kept', stack')
      | k2 :: rest2 => runCalls cur_pc gasNow cur_depth (kept' ++ [k2]) rest2 stack'
    else
      runCalls cur_pc gasNow cur_depth (kept ++ [k]) rest stack

/-- Result of processing one step: continue the scan, or `break`. -/
inductive StepRes where
  | cont : St → StepRes
  | stop : St → StepRes
deriving DecidableEq

/-- The state carried by a `StepRes`. -/
def stepState : StepRes → St
  | .cont s => s
  | .stop s => s

/-- One iteration of the `for log in struct_logs:` loop of
`parse_struct_logs`.  The start-marker check comes first (and fires even
while already monitoring, overwriting `gas_start`); the end-marker check is
not gated on `monitor` and `break`s; otherwise, while monitoring, steps not
at `depth + 1` are skipped, call-family steps open a frame, and any other
step accumulates its `gasCost` and runs the return-matching loop. -/
def stepLog (P D : Int) (st : St) (l : Log) : StepRes :=
  if l.pc = P ∧ l.depth = D then
    .cont { st with monitor := true, gas_start := l.gas }
  else if l.pc = P + 1 ∧ l.depth = D then
    .stop { st with monitor := false, gas_end := l.gas }
  else if st.monitor then
    if l.depth ≠ D + 1 then
      .cont st
    else if l.op ∈ stack_increasers then
      .cont { st with
        callStack := dictSet st.callStack (l.pc, l.depth)
          ⟨l.pc, l.depth, l.gas, l.op, none, none, none⟩,
        activeCalls := st.activeCalls ++ [(l.pc, l.depth)] }
    else
      let p := runCalls l.pc l.gas l.depth [] st.activeCalls st.callStack
      .cont { st with
        gas_sum := st.gas_sum + l.gasCost
        activeCalls := p.1
        callStack := p.2 }
  else
    .cont st

/-- The scan over the whole trace, honoring the `break`. -/
def parseLoop (P D : Int) : List Log → St → St
  | [], st => st
  | l :: rest, st =>
    match stepLog P D st l with
    | .cont st' => parseLoop P D rest st'
    | .stop st' => st'

/-- The post-loop pass `for _, call_info in call_stack.items(): if 'gas_used'
in call_info: gas_sum += call_info['gas_used']`. -/
def finalizedGas (s : CallStack) : Int :=
  s.foldl (fun acc e => match e.2.gas_used with | some g => acc + g | none => acc) 0

/-- `parse_struct_logs`, acting on the already-extracted step sequence
(file I/O and JSON decoding are the external trace-source collaborator). -/
def parse_struct_logs (logs : List Log) (start_pc depth : Int) : St :=
  let st := parseLoop start_pc depth logs initSt
  { st with gas_sum := st.gas_sum + finalizedGas st.callStack }

/-- The `Total gas used` figure printed by `print_results`. -/
def gas_total (r : St) : Int := r.gas_start - r.gas_end

/-- The `Non Execution gas used` figure printed by `print_results`. -/
def non_execution_gas (r : St) : Int := gas_total r - r.gas_sum

/-- The `result` member of a decoded trace document, which may or may not
carry a `structLogs` field. -/
structure ResultObj where
  structLogs : Option (List Log)

/-- A decoded trace document: optional `result` member and optional
top-level `structLogs` member. -/
structure TraceDoc where
  result : Option ResultObj
  structLogs : Option (List Log)

/-- `get_struct_logs_from_file` after JSON decoding: prefer
`data['result']['structLogs']`, fall back to `data['structLogs']`, raise
`KeyError` when neither is present. -/
def get_struct_logs_from_file (data : TraceDoc) : Except String (List Log) :=
  match data.result with
  | some r =>
    match r.structLogs with
    | some sl => .ok sl
    | none =>
      match data.structLogs with
      | some sl => .ok sl
      | none => .error "structLogs not found in either data['result']['structLogs'] or data['structLogs']"
  | none =>
    match data.structLogs with
    | some sl => .ok sl
    | none => .error "structLogs not found in either data['result']['structLogs'] or data['structLogs']"

/-- Boolean test for the start marker `(P, D)`. -/
def startMark (P D : Int) (l : Log) : Bool := decide (l.pc = P ∧ l.depth = D)

/-- Boolean test for the absence of the end marker `(P + 1, D)`. -/
def notEnd (P D : Int) (l : Log) : Bool := decide (¬(l.pc = P + 1 ∧ l.depth = D))

/-- Boolean test for a non-call-family step at the window's child depth. -/
def childNonCall (D : Int) (l : Log) : Bool :=
  decide (l.depth = D + 1 ∧ ¬ l.op ∈ stack_increasers)

theorem startMark_true {P D : Int} {l : Log} (h : l.pc = P ∧ l.depth = D) :
    startMark P D l = true := decide_eq_true h

theorem startMark_false {P D : Int} {l : Log} (h : ¬(l.pc = P ∧ l.depth = D)) :
    startMark P D l = false := decide_eq_false h

theorem notEnd_true {P D : Int} {l : Log} (h : ¬(l.pc = P + 1 ∧ l.depth = D)) :
    notEnd P D l = true := decide_eq_true h

theorem notEnd_false {P D : Int} {l : Log} (h : l.pc = P + 1 ∧ l.depth = D) :
    notEnd P D l = false := decide_eq_false (not_not_intro h)

theorem childNonCall_true {D : Int} {l : Log}
    (h : l.depth = D + 1 ∧ ¬ l.op ∈ stack_increasers) :
    childNonCall D l = true := decide_eq_true h

theorem childNonCall_false {D : Int} {l : Log}
    (h : ¬(l.depth = D + 1 ∧ ¬ l.op ∈ stack_increasers)) :
    childNonCall D l = false := decide_eq_false h

/-- The steps the scan processes while monitoring: everything after the
first start marker up to (excluding) the next end marker.  An end marker
seen before any start marker stops the scan with the window never opened. -/
def windowSteps (P D : Int) : List Log → List Log
  | [] => []
  | l :: rest =>
    if l.pc = P ∧ l.depth = D then rest.takeWhile (notEnd P D)
    else if l.pc = P + 1 ∧ l.depth = D then []
    else windowSteps P D rest

/-- Specification-side figure: the sum of the `gasCost` fields of the
non-call-family steps at depth `D + 1` inside the monitoring window. -/
def windowDirectGas (P D : Int) (logs : List Log) : Int :=
  (((windowSteps P D logs).filter (childNonCall D)).map Log.gasCost).sum

/-- Boolean test for the end marker `(P + 1, D)`. -/
def endMark (P D : Int) (l : Log) : Bool := decide (l.pc = P + 1 ∧ l.depth = D)

/-- The remaining gas of the first end-marker step of the trace, `0` when
there is none (the scan's `break` fires at that step whether or not the
window is open). -/
def firstEndGas (P D : Int) (logs : List Log) : Int :=
  ((logs.find? (endMark P D)).map Log.gas).getD 0

/-- The stack update performed on a matched key: pop + modify + re-insert. -/
def closeStack (stack : CallStack) (k : Key) (cur_pc gasNow cur_depth : Int) : CallStack :=
  match dictGet stack k with
  | some info => dictRemove stack k ++ [(k, closeInfo info cur_pc gasNow cur_depth)]
  | none => stack

/-- Invariant of every state reached by the scan: the frame-map keys are
duplicate-free, and every tracked key (in the map and in the active list)
sits at depth `D + 1`. -/
def StInv (D : Int) (st : St) : Prop :=
  (st.callStack.map Prod.fst).Nodup ∧
  (∀ a ∈ st.callStack.map Prod.fst, a.2 = D + 1) ∧
  (∀ a ∈ st.activeCalls, a.2 = D + 1)

/-! ### Concrete traces used to witness the theorems below -/

/-- The literal five-step trace of the specification's concrete scenario. -/
def specTrace : List Log :=
  [⟨10, 1, "JUMPDEST", 500, 0⟩, ⟨20, 2, "ADD", 490, 3⟩, ⟨21, 2, "CALL", 487, 0⟩,
   ⟨22, 2, "STOP", 450, 0⟩, ⟨11, 1, "JUMPDEST", 440, 0⟩]

/-- A trace with an end-marker step but no start-marker step. -/
def endOnlyTrace : List Log := [⟨11, 1, "STOP", 77, 0⟩]

/-- A trace whose start marker `(10, 1)` occurs twice before the end. -/
def doubleStartTrace : List Log :=
  [⟨10, 1, "JUMPDEST", 500, 0⟩, ⟨10, 1, "JUMPDEST", 400, 0⟩, ⟨11, 1, "JUMPDEST", 300, 0⟩]

/-- A trace that opens the window and a frame but never closes either. -/
def openTrace : List Log :=
  [⟨10, 1, "JUMPDEST", 500, 0⟩, ⟨20, 2, "CALL", 490, 0⟩]

/-- A window with two sibling frames opened at distinct program counters. -/
def siblingTrace : List Log :=
  [⟨10, 1, "JUMPDEST", 500, 0⟩, ⟨20, 2, "CALL", 490, 0⟩, ⟨30, 2, "CALL", 480, 0⟩]

/-- A return step at pc `21 = 20 + 1`, closing only the frame at pc `20`. -/
def siblingReturn : Log := ⟨21, 2, "ADD", 450, 3⟩

/-- A trace observing a call-family step twice at the same key `(20, 2)`
with no resolution in between. -/
def dupKeyTrace : List Log :=
  [⟨10, 1, "JUMPDEST", 500, 0⟩, ⟨20, 2, "CALL", 490, 0⟩, ⟨20, 2, "CALL", 480, 0⟩]

/-- A window in which the frame keyed `(20, 2)` opens, closes (gas-used
`40`), and the same call site then re-executes before the window closes:
the second call overwrites the finalized descriptor at `(20, 2)`. -/
def reopenTrace : List Log :=
  [⟨10, 1, "JUMPDEST", 500, 0⟩, ⟨20, 2, "CALL", 490, 0⟩, ⟨21, 2, "ADD", 450, 3⟩,
   ⟨20, 2, "CALL", 400, 0⟩, ⟨11, 1, "JUMPDEST", 300, 0⟩]

/-- Steps appended after a closed window, to be ignored by the scan. -/
def extraSteps : List Log := [⟨99, 1, "ADD", 100, 3⟩, ⟨10, 1, "JUMPDEST", 90, 0⟩]

/-- A monitoring state with one active frame keyed `(20, 2)`. -/
def oneFrameSt : St :=
  { callStack := [((20, 2), ⟨20, 2, 490, "CALL", none, none, none⟩)]
    activeCalls := [(20, 2)]
    gas_sum := 5
    gas_start := 500
    gas_end := 0
    monitor := true }

/-- A call-family step whose pc `21` equals the active frame's pc `20` plus
one. -/
def callAtReturnPc : Log := ⟨21, 2, "CALL", 480, 0⟩

/-- A decoded document carrying only `result.structLogs`. -/
def docResultOnly : TraceDoc := ⟨some ⟨some specTrace⟩, none⟩

/-! ### Association-list (dict) lemmas -/

theorem dictGet_cons (e : Key × CallInfo) (s : CallStack) (k : Key) :
    dictGet (e :: s) k = if e.1 = k then some e.2 else dictGet s k := by
  by_cases h : e.1 = k <;> simp [dictGet, List.find?, h]

theorem dictGet_dictSet_self (s : CallStack) (k : Key) (v : CallInfo) :
    dictGet (dictSet s k v) k = some v := by
  unfold dictSet
  split
  · rename_i hany
    induction s with
    | nil => simp at hany
    | cons e s ih =>
      rw [List.map_cons]
      by_cases h : e.1 = k
      · simp [h, dictGet_cons]
      · rw [if_neg h, dictGet_cons, if_neg h]
        apply ih
        simpa [h] using hany
  · rename_i hany
    induction s with
    | nil => simp [dictGet, List.find?]
    | cons e s ih =>
      rw [List.cons_append, dictGet_cons]
      have he : ¬ e.1 = k := by
        intro h; exact hany (by simp [h])
      rw [if_neg he]
      apply ih
      intro h; exact hany (by simpa using Or.inr h)

theorem dictGet_map_set_ne (s : CallStack) (k k' : Key) (v : CallInfo) (h : k' ≠ k) :
    dictGet (s.map fun e => if e.1 = k then (k, v) else e) k' = dictGet s k' := by
  induction s with
  | nil => rfl
  | cons e s ih =>
    rw [List.map_cons, dictGet_cons, dictGet_cons]
    by_cases he : e.1 = k
    · rw [if_pos he]
      have h1 : ¬ ((k, v) : Key × CallInfo).1 = k' := fun hk => h hk.symm
      have h2 : ¬ e.1 = k' := he ▸ h1
      rw [if_neg h1, if_neg h2]
      exact ih
    · rw [if_neg he]
      by_cases he' : e.1 = k'
      · rw [if_pos he', if_pos he']
      · rw [if_neg he', if_neg he']
        exact ih

theorem dictGet_append_single_ne (s : CallStack) (k k' : Key) (v : CallInfo) (h : k' ≠ k) :
    dictGet (s ++ [(k, v)]) k' = dictGet s k' := by
  induction s with
  | nil =>
    have h1 : ¬ ((k, v) : Key × CallInfo).1 = k' := fun hk => h hk.symm
    simp [dictGet_cons, h1, dictGet]
  | cons e s ih =>
    rw [List.cons_append, dictGet_cons, dictGet_cons]
    by_cases he' : e.1 = k'
    · rw [if_pos he', if_pos he']
    · rw [if_neg he', if_neg he']
      exact ih

theorem dictGet_dictSet_ne (s : CallStack) (k k' : Key) (v : CallInfo) (h : k' ≠ k) :
    dictGet (dictSet s k v) k' = dictGet s k' := by
  unfold dictSet
  split
  · exact dictGet_map_set_ne s k k' v h
  · exact dictGet_append_single_ne s k k' v h

theorem dictGet_dictRemove_ne (s : CallStack) (k k' : Key) (h : k' ≠ k) :
    dictGet (dictRemove s k) k' = dictGet s k' := by
  induction s with
  | nil => rfl
  | cons e s ih =>
    rw [dictGet_cons, dictRemove, List.filter_cons]
    by_cases he : e.1 = k
    · have : ¬ decide (e.1 ≠ k) = true := by simp [he]
      rw [if_neg this]
      have h2 : ¬ e.1 = k' := fun hk => h (hk ▸ he ▸ rfl)
      rw [if_neg h2]
      exact ih
    · have : decide (e.1 ≠ k) = true := by simp [he]
      rw [if_pos this, dictGet_cons]
      by_cases he' : e.1 = k'
      · rw [if_pos he', if_pos he']
      · rw [if_neg he', if_neg he']
        exact ih

theorem dictGet_dictRemove_append_ne (s : CallStack) (k k' : Key) (v : CallInfo)
    (h : k' ≠ k) : dictGet (dictRemove s k ++ [(k, v)]) k' = dictGet s k' := by
  rw [dictGet_append_single_ne _ k k' v h, dictGet_dictRemove_ne s k k' h]

/-! ### `removeFirst` and `keyCount` lemmas -/

theorem keyCount_cons (x : Key) (xs : List Key) (k : Key) :
    keyCount (x :: xs) k = if x = k then keyCount xs k + 1 else keyCount xs k := by
  by_cases h : x = k <;> simp [keyCount, List.filter_cons, h]

theorem keyCount_append (a b : List Key) (k : Key) :
    keyCount (a ++ b) k = keyCount a k + keyCount b k := by
  simp [keyCount, List.filter_append]

theorem keyCount_removeFirst_ne (l : List Key) (k k' : Key) (h : k' ≠ k) :
    keyCount (removeFirst l k) k' = keyCount l k' := by
  induction l with
  | nil => rfl
  | cons x xs ih =>
    rw [removeFirst]
    by_cases hx : x = k
    · rw [if_pos hx, keyCount_cons, if_neg (fun hk : x = k' => h (hk ▸ hx ▸ rfl))]
    · rw [if_neg hx, keyCount_cons, keyCount_cons]
      by_cases hx' : x = k'
      · rw [if_pos hx', if_pos hx', ih]
      · rw [if_neg hx', if_neg hx', ih]

/-! ### Branch equations for `stepLog` -/

theorem stepLog_start (P D : Int) (st : St) (l : Log) (h : l.pc = P ∧ l.depth = D) :
    stepLog P D st l = .cont { st with monitor := true, gas_start := l.gas } := by
  simp [stepLog, h]

theorem stepLog_end (P D : Int) (st : St) (l : Log)
    (h1 : ¬(l.pc = P ∧ l.depth = D)) (h2 : l.pc = P + 1 ∧ l.depth = D) :
    stepLog P D st l = .stop { st with monitor := false, gas_end := l.gas } := by
  simp [stepLog, h1, h2]

theorem stepLog_idle (P D : Int) (st : St) (l : Log)
    (h1 : ¬(l.pc = P ∧ l.depth = D)) (h2 : ¬(l.pc = P + 1 ∧ l.depth = D))
    (h3 : st.monitor = false) :
    stepLog P D st l = .cont st := by
  simp [stepLog, h1, h2, h3]

theorem stepLog_skip (P D : Int) (st : St) (l : Log)
    (h1 : ¬(l.pc = P ∧ l.depth = D)) (h2 : ¬(l.pc = P + 1 ∧ l.depth = D))
    (h3 : st.monitor = true) (h4 : l.depth ≠ D + 1) :
    stepLog P D st l = .cont st := by
  simp [stepLog, h1, h2, h3, h4]

theorem stepLog_call (P D : Int) (st : St) (l : Log)
    (h1 : ¬(l.pc = P ∧ l.depth = D)) (h2 : ¬(l.pc = P + 1 ∧ l.depth = D))
    (h3 : st.monitor = true) (h4 : l.depth = D + 1) (h5 : l.op ∈ stack_increasers) :
    stepLog P D st l = .cont { st with
      callStack := dictSet st.callStack (l.pc, l.depth)
        ⟨l.pc, l.depth, l.gas, l.op, none, none, none⟩
      activeCalls := st.activeCalls ++ [(l.pc, l.depth)] } := by
  simp [stepLog, h1, h2, h3, h4, h5]

theorem stepLog_acc (P D : Int) (st : St) (l : Log)
    (h1 : ¬(l.pc = P ∧ l.depth = D)) (h2 : ¬(l.pc = P + 1 ∧ l.depth = D))
    (h3 : st.monitor = true) (h4 : l.depth = D + 1) (h5 : ¬ l.op ∈ stack_increasers) :
    stepLog P D st l = .cont { st with
      gas_sum := st.gas_sum + l.gasCost
      activeCalls := (runCalls l.pc l.gas l.depth [] st.activeCalls st.callStack).1
      callStack := (runCalls l.pc l.gas l.depth [] st.activeCalls st.callStack).2 } := by
  simp [stepLog, h1, h2, h3, h4, h5]

/-- A step at depth `D + 1` never matches either window marker
(markers require depth `D`, and `D + 1 ≠ D`). -/
theorem depth_child_not_marker (P D : Int) (l : Log) (h : l.depth = D + 1) :
    ¬(l.pc = P ∧ l.depth = D) ∧ ¬(l.pc = P + 1 ∧ l.depth = D) := by
  constructor <;> rintro ⟨-, hd⟩ <;> omega

/-! ### `runCalls` preservation lemmas -/

theorem closeStack_dictGet_ne (stack : CallStack) (k k' : Key)
    (cur_pc gasNow cur_depth : Int) (h : k' ≠ k) :
    dictGet (closeStack stack k cur_pc gasNow cur_depth) k' = dictGet stack k' := by
  unfold closeStack
  cases hdg : dictGet stack k with
  | some info => exact dictGet_dictRemove_append_ne stack k k' _ h
  | none => rfl

/-- Unfolding of `runCalls` on a matched head, phrased with `closeStack`. -/
theorem runCalls_cons_match (cur_pc gasNow cur_depth : Int) (kept : List Key)
    (k : Key) (rest : List Key) (stack : CallStack) (hm : cur_pc = k.1 + 1) :
    runCalls cur_pc gasNow cur_depth kept (k :: rest) stack =
      (match rest with
       | [] => (if k ∈ kept then removeFirst kept k ++ [k] else kept,
                closeStack stack k cur_pc gasNow cur_depth)
       | k2 :: rest2 => runCalls cur_pc gasNow cur_depth
           ((if k ∈ kept then removeFirst kept k ++ [k] else kept) ++ [k2]) rest2
           (closeStack stack k cur_pc gasNow cur_depth)) := by
  rw [runCalls, if_pos hm]
  cases rest <;> rfl

theorem runCalls_cons_nomatch (cur_pc gasNow cur_depth : Int) (kept : List Key)
    (k : Key) (rest : List Key) (stack : CallStack) (hm : ¬ cur_pc = k.1 + 1) :
    runCalls cur_pc gasNow cur_depth kept (k :: rest) stack =
      runCalls cur_pc gasNow cur_depth (kept ++ [k]) rest stack := by
  rw [runCalls, if_neg hm]

/-- The multiset of active keys other than the matched key is preserved:
`keyCount` of the `if`-update used for `kept`. -/
theorem keyCount_keptUpdate (kept : List Key) (k k' : Key) (hne : k ≠ k') :
    keyCount (if k ∈ kept then removeFirst kept k ++ [k] else kept) k' =
      keyCount kept k' := by
  by_cases hmem : k ∈ kept
  · rw [if_pos hmem, keyCount_append,
      keyCount_removeFirst_ne kept k k' (fun h => hne h.symm)]
    simp [keyCount, hne]
  · rw [if_neg hmem]

/-- The return-matching loop only touches frame-map entries whose key has
first component `cur_pc - 1`: every other key's binding is unchanged. -/
theorem runCalls_dictGet_ne (cur_pc gasNow cur_depth : Int) (k' : Key)
    (hk : ¬ k'.1 + 1 = cur_pc) : ∀ (n : Nat) (rem : List Key), rem.length ≤ n →
    ∀ (kept : List Key) (stack : CallStack),
      dictGet (runCalls cur_pc gasNow cur_depth kept rem stack).2 k' = dictGet stack k' := by
  intro n
  induction n with
  | zero =>
    intro rem hlen kept stack
    cases rem with
    | nil => rfl
    | cons k rest => simp at hlen
  | succ n ih =>
    intro rem hlen kept stack
    cases rem with
    | nil => rfl
    | cons k rest =>
      by_cases hm : cur_pc = k.1 + 1
      · have hne : k' ≠ k := fun h => hk (by rw [h, ← hm])
        rw [runCalls_cons_match _ _ _ _ _ _ _ hm]
        cases rest with
        | nil => exact closeStack_dictGet_ne stack k k' _ _ _ hne
        | cons k2 rest2 =>
          rw [ih rest2 (by simp at hlen; omega) _ _]
          exact closeStack_dictGet_ne stack k k' _ _ _ hne
      · rw [runCalls_cons_nomatch _ _ _ _ _ _ _ hm]
        exact ih rest (by simp at hlen; omega) _ _

/-- The return-matching loop preserves the number of occurrences of every
active key other than the matched key `(cur_pc - 1, ·)`. -/
theorem runCalls_keyCount_ne (cur_pc gasNow cur_depth : Int) (k' : Key)
    (hk : ¬ k'.1 + 1 = cur_pc) : ∀ (n : Nat) (rem : List Key), rem.length ≤ n →
    ∀ (kept : List Key) (stack : CallStack),
      keyCount (runCalls cur_pc gasNow cur_depth kept rem stack).1 k' =
        keyCount kept k' + keyCount rem k' := by
  intro n
  induction n with
  | zero =>
    intro rem hlen kept stack
    cases rem with
    | nil => simp [runCalls, keyCount]
    | cons k rest => simp at hlen
  | succ n ih =>
    intro rem hlen kept stack
    cases rem with
    | nil => simp [runCalls, keyCount]
    | cons k rest =>
      by_cases hm : cur_pc = k.1 + 1
      · have hne : k ≠ k' := fun h => hk (by rw [← h, ← hm])
        rw [runCalls_cons_match _ _ _ _ _ _ _ hm]
        cases rest with
        | nil =>
          rw [keyCount_keptUpdate kept k k' hne]
          simp [keyCount, List.filter_cons, hne]
        | cons k2 rest2 =>
          rw [ih rest2 (by simp at hlen; omega) _ _, keyCount_append,
            keyCount_keptUpdate kept k k' hne]
          by_cases h2 : k2 = k' <;>
            simp [keyCount, List.filter_cons, hne, h2] <;> try omega
      · rw [runCalls_cons_nomatch _ _ _ _ _ _ _ hm,
          ih rest (by simp at hlen; omega) _ _, keyCount_append]
        by_cases h2 : k = k' <;>
          simp [keyCount, List.filter_cons, h2] <;> try omega

/-! ### Key-set lemmas: the frame map behaves like a dict -/

theorem nodup_append_singleton {α : Type} {l : List α} {a : α}
    (h : l.Nodup) (ha : a ∉ l) : (l ++ [a]).Nodup := by
  simp [List.nodup_append, h, ha]

theorem keys_map_set (s : CallStack) (k : Key) (v : CallInfo) :
    (s.map fun e => if e.1 = k then (k, v) else e).map Prod.fst = s.map Prod.fst := by
  induction s with
  | nil => rfl
  | cons e s ih =>
    rw [List.map_cons, List.map_cons, List.map_cons, ih]
    by_cases he : e.1 = k
    · rw [if_pos he, he]
    · rw [if_neg he]

theorem keys_dictRemove (s : CallStack) (k : Key) :
    (dictRemove s k).map Prod.fst = (s.map Prod.fst).filter fun a => decide (a ≠ k) := by
  induction s with
  | nil => rfl
  | cons e s ih =>
    rw [dictRemove, List.filter_cons, List.map_cons, List.filter_cons]
    rw [dictRemove] at ih
    by_cases he : e.1 ≠ k
    · rw [if_pos (by simpa using he), if_pos (by simpa using he), List.map_cons, ih]
    · rw [if_neg (by simpa using he), if_neg (by simpa using he)]
      exact ih

theorem not_mem_keys_of_not_any (s : CallStack) (k : Key)
    (h : ¬ (s.any fun e => decide (e.1 = k)) = true) : k ∉ s.map Prod.fst := by
  intro hmem
  apply h
  rw [List.any_eq_true]
  rcases List.mem_map.mp hmem with ⟨e, he, hek⟩
  exact ⟨e, he, by simp [hek]⟩

theorem nodup_keys_dictSet (s : CallStack) (k : Key) (v : CallInfo)
    (h : (s.map Prod.fst).Nodup) : ((dictSet s k v).map Prod.fst).Nodup := by
  unfold dictSet
  split
  · rw [keys_map_set]; exact h
  · rename_i hany
    rw [List.map_append]
    exact nodup_append_singleton h (not_mem_keys_of_not_any s k hany)

theorem mem_keys_dictSet (s : CallStack) (k a : Key) (v : CallInfo)
    (h : a ∈ (dictSet s k v).map Prod.fst) : a ∈ s.map Prod.fst ∨ a = k := by
  unfold dictSet at h
  split at h
  · rw [keys_map_set] at h; exact Or.inl h
  · rw [List.map_append] at h
    rcases List.mem_append.mp h with h | h
    · exact Or.inl h
    · simp at h; exact Or.inr h

theorem nodup_keys_closeStack (s : CallStack) (k : Key) (cur_pc gasNow cur_depth : Int)
    (h : (s.map Prod.fst).Nodup) :
    ((closeStack s k cur_pc gasNow cur_depth).map Prod.fst).Nodup := by
  unfold closeStack
  cases dictGet s k with
  | none => exact h
  | some info =>
    rw [List.map_append, keys_dictRemove]
    refine nodup_append_singleton (h.filter _) ?_
    intro hmem
    have := (List.mem_filter.mp hmem).2
    simp at this

theorem mem_keys_closeStack (s : CallStack) (k a : Key) (cur_pc gasNow cur_depth : Int)
    (h : a ∈ (closeStack s k cur_pc gasNow cur_depth).map Prod.fst) :
    a ∈ s.map Prod.fst ∨ a = k := by
  unfold closeStack at h
  cases hdg : dictGet s k with
  | none => rw [hdg] at h; exact Or.inl h
  | some info =>
    rw [hdg] at h
    rw [List.map_append, keys_dictRemove] at h
    rcases List.mem_append.mp h with h | h
    · exact Or.inl (List.mem_filter.mp h).1
    · simp at h; exact Or.inr h

theorem mem_removeFirst (l : List Key) (k a : Key) (h : a ∈ removeFirst l k) : a ∈ l := by
  induction l with
  | nil => exact absurd h (by simp [removeFirst])
  | cons x xs ih =>
    rw [removeFirst] at h
    by_cases hx : x = k
    · rw [if_pos hx] at h
      exact List.mem_cons_of_mem x h
    · rw [if_neg hx] at h
      rcases List.mem_cons.mp h with h | h
      · exact h ▸ List.mem_cons_self x xs
      · exact List.mem_cons_of_mem x (ih h)

theorem mem_keptUpdate (kept : List Key) (k a : Key)
    (h : a ∈ (if k ∈ kept then removeFirst kept k ++ [k] else kept)) :
    a ∈ kept ∨ a = k := by
  split at h
  · rcases List.mem_append.mp h with h | h
    · exact Or.inl (mem_removeFirst kept k a h)
    · simp at h; exact Or.inr h
  · exact Or.inl h

/-- `runCalls` keeps the frame-map keys free of duplicates. -/
theorem runCalls_nodup_keys (cur_pc gasNow cur_depth : Int) :
    ∀ (n : Nat) (rem : List Key), rem.length ≤ n →
    ∀ (kept : List Key) (stack : CallStack), ((stack.map Prod.fst).Nodup) →
      (((runCalls cur_pc gasNow cur_depth kept rem stack).2.map Prod.fst)).Nodup := by
  intro n
  induction n with
  | zero =>
    intro rem hlen kept stack h
    cases rem with
    | nil => exact h
    | cons k rest => simp at hlen
  | succ n ih =>
    intro rem hlen kept stack h
    cases rem with
    | nil => exact h
    | cons k rest =>
      by_cases hm : cur_pc = k.1 + 1
      · rw [runCalls_cons_match _ _ _ _ _ _ _ hm]
        cases rest with
        | nil => exact nodup_keys_closeStack stack k _ _ _ h
        | cons k2 rest2 =>
          exact ih rest2 (by simp at hlen; omega) _ _
            (nodup_keys_closeStack stack k _ _ _ h)
      · rw [runCalls_cons_nomatch _ _ _ _ _ _ _ hm]
        exact ih rest (by simp at hlen; omega) _ _ h

/-- Every key of the frame map after `runCalls` was a key before or is one
of the processed active keys. -/
theorem runCalls_mem_keys (cur_pc gasNow cur_depth : Int) :
    ∀ (n : Nat) (rem : List Key), rem.length ≤ n →
    ∀ (kept : List Key) (stack : CallStack) (a : Key),
      a ∈ (runCalls cur_pc gasNow cur_depth kept rem stack).2.map Prod.fst →
      a ∈ stack.map Prod.fst ∨ a ∈ rem := by
  intro n
  induction n with
  | zero =>
    intro rem hlen kept stack a h
    cases rem with
    | nil => exact Or.inl h
    | cons k rest => simp at hlen
  | succ n ih =>
    intro rem hlen kept stack a h
    cases rem with
    | nil => exact Or.inl h
    | cons k rest =>
      by_cases hm : cur_pc = k.1 + 1
      · rw [runCalls_cons_match _ _ _ _ _ _ _ hm] at h
        cases rest with
        | nil =>
          rcases mem_keys_closeStack stack k a _ _ _ h with h | h
          · exact Or.inl h
          · exact Or.inr (by simp [h])
        | cons k2 rest2 =>
          rcases ih rest2 (by simp at hlen; omega) _ _ a h with h | h
          · rcases mem_keys_closeStack stack k a _ _ _ h with h | h
            · exact Or.inl h
            · exact Or.inr (by simp [h])
          · exact Or.inr (by simp [h])
      · rw [runCalls_cons_nomatch _ _ _ _ _ _ _ hm] at h
        rcases ih rest (by simp at hlen; omega) _ _ a h with h | h
        · exact Or.inl h
        · exact Or.inr (by simp [h])

/-- Every active key after `runCalls` comes from `kept` or `rem`. -/
theorem runCalls_mem_active (cur_pc gasNow cur_depth : Int) :
    ∀ (n : Nat) (rem : List Key), rem.length ≤ n →
    ∀ (kept : List Key) (stack : CallStack) (a : Key),
      a ∈ (runCalls cur_pc gasNow cur_depth kept rem stack).1 →
      a ∈ kept ∨ a ∈ rem := by
  intro n
  induction n with
  | zero =>
    intro rem hlen kept stack a h
    cases rem with
    | nil => exact Or.inl h
    | cons k rest => simp at hlen
  | succ n ih =>
    intro rem hlen kept stack a h
    cases rem with
    | nil => exact Or.inl h
    | cons k rest =>
      by_cases hm : cur_pc = k.1 + 1
      · rw [runCalls_cons_match _ _ _ _ _ _ _ hm] at h
        cases rest with
        | nil =>
          rcases mem_keptUpdate kept k a h with h | h
          · exact Or.inl h
          · exact Or.inr (by simp [h])
        | cons k2 rest2 =>
          rcases ih rest2 (by simp at hlen; omega) _ _ a h with h | h
          · rcases List.mem_append.mp h with h | h
            · rcases mem_keptUpdate kept k a h with h | h
              · exact Or.inl h
              · exact Or.inr (by simp [h])
            · simp at h; exact Or.inr (by simp [h])
          · exact Or.inr (by simp [h])
      · rw [runCalls_cons_nomatch _ _ _ _ _ _ _ hm] at h
        rcases ih rest (by simp at hlen; omega) _ _ a h with h | h
        · rcases List.mem_append.mp h with h | h
          · exact Or.inl h
          · simp at h; exact Or.inr (by simp [h])
        · exact Or.inr (by simp [h])

/-! ### Reachable-state invariant -/

theorem stepState_cont (s : St) : stepState (.cont s) = s := rfl

theorem stepState_stop (s : St) : stepState (.stop s) = s := rfl

theorem stInv_init (D : Int) : StInv D initSt := by
  refine ⟨?_, ?_, ?_⟩ <;> simp [initSt]

theorem stInv_step (P D : Int) (st : St) (l : Log) (h : StInv D st) :
    StInv D (stepState (stepLog P D st l)) := by
  obtain ⟨hnd, hkd, had⟩ := h
  by_cases h1 : l.pc = P ∧ l.depth = D
  · rw [stepLog_start P D st l h1, stepState_cont]
    exact ⟨hnd, hkd, had⟩
  by_cases h2 : l.pc = P + 1 ∧ l.depth = D
  · rw [stepLog_end P D st l h1 h2, stepState_stop]
    exact ⟨hnd, hkd, had⟩
  cases hmon : st.monitor with
  | false =>
    rw [stepLog_idle P D st l h1 h2 hmon, stepState_cont]
    exact ⟨hnd, hkd, had⟩
  | true =>
    by_cases h4 : l.depth = D + 1
    · by_cases h5 : l.op ∈ stack_increasers
      · rw [stepLog_call P D st l h1 h2 hmon h4 h5, stepState_cont]
        refine ⟨nodup_keys_dictSet _ _ _ hnd, ?_, ?_⟩
        · intro a ha
          rcases mem_keys_dictSet _ _ _ _ ha with ha | ha
          · exact hkd a ha
          · rw [ha]; exact h4
        · intro a ha
          rcases List.mem_append.mp ha with ha | ha
          · exact had a ha
          · simp at ha; rw [ha]; exact h4
      · rw [stepLog_acc P D st l h1 h2 hmon h4 h5, stepState_cont]
        refine ⟨?_, ?_, ?_⟩
        · exact runCalls_nodup_keys _ _ _ st.activeCalls.length _ le_rfl _ _ hnd
        · intro a ha
          rcases runCalls_mem_keys _ _ _ st.activeCalls.length _ le_rfl _ _ a ha
            with ha | ha
          · exact hkd a ha
          · exact had a ha
        · intro a ha
          rcases runCalls_mem_active _ _ _ st.activeCalls.length _ le_rfl _ _ a ha
            with ha | ha
          · exact absurd ha (by simp)
          · exact had a ha
    · rw [stepLog_skip P D st l h1 h2 hmon h4, stepState_cont]
      exact ⟨hnd, hkd, had⟩

theorem stInv_parseLoop (P D : Int) (logs : List Log) (st : St) (h : StInv D st) :
    StInv D (parseLoop P D logs st) := by
  induction logs generalizing st with
  | nil => exact h
  | cons l rest ih =>
    rw [parseLoop]
    cases hstep : stepLog P D st l with
    | cont st' =>
      have := stInv_step P D st l h
      rw [hstep, stepState_cont] at this
      exact ih st' this
    | stop st' =>
      have := stInv_step P D st l h
      rw [hstep, stepState_stop] at this
      exact this

theorem stInv_reachable (P D : Int) (logs : List Log) :
    StInv D (parseLoop P D logs initSt) :=
  stInv_parseLoop P D logs initSt (stInv_init D)

/-! ### Scan-level lemmas about the gas registers -/

/-- On any step that is neither marker, the scan continues and the window
registers (`gas_start`, `gas_end`, `monitor`) are untouched. -/
theorem stepLog_nonmarker (P D : Int) (st : St) (l : Log)
    (h1 : ¬(l.pc = P ∧ l.depth = D)) (h2 : ¬(l.pc = P + 1 ∧ l.depth = D)) :
    ∃ st', stepLog P D st l = .cont st' ∧ st'.gas_start = st.gas_start ∧
      st'.gas_end = st.gas_end ∧ st'.monitor = st.monitor := by
  cases hmon : st.monitor with
  | false => exact ⟨st, stepLog_idle P D st l h1 h2 hmon, rfl, rfl, hmon⟩
  | true =>
    by_cases h4 : l.depth = D + 1
    · by_cases h5 : l.op ∈ stack_increasers
      · exact ⟨_, stepLog_call P D st l h1 h2 hmon h4 h5, rfl, rfl, hmon⟩
      · exact ⟨_, stepLog_acc P D st l h1 h2 hmon h4 h5, rfl, rfl, hmon⟩
    · exact ⟨st, stepLog_skip P D st l h1 h2 hmon h4, rfl, rfl, hmon⟩

/-- A `stop` result can only come from the end-marker branch. -/
theorem stepLog_stop_isEnd (P D : Int) (st : St) (l : Log) (st' : St)
    (h : stepLog P D st l = .stop st') : l.pc = P + 1 ∧ l.depth = D := by
  unfold stepLog at h
  by_cases h1 : l.pc = P ∧ l.depth = D
  · rw [if_pos h1] at h; exact absurd h (by simp)
  rw [if_neg h1] at h
  by_cases h2 : l.pc = P + 1 ∧ l.depth = D
  · exact h2
  rw [if_neg h2] at h
  by_cases hmon : st.monitor
  · rw [if_pos hmon] at h
    by_cases h4 : l.depth ≠ D + 1
    · rw [if_pos h4] at h; exact absurd h (by simp)
    rw [if_neg h4] at h
    by_cases h5 : l.op ∈ stack_increasers
    · rw [if_pos h5] at h; exact absurd h (by simp)
    · rw [if_neg h5] at h; exact absurd h (by simp)
  · rw [if_neg hmon] at h; exact absurd h (by simp)

/-- A start-marker step cannot be an end marker (`P ≠ P + 1`). -/
theorem start_not_end (P D : Int) (l : Log) (h : l.pc = P ∧ l.depth = D) :
    ¬(l.pc = P + 1 ∧ l.depth = D) := by
  rintro ⟨hp, -⟩
  rw [h.1] at hp
  omega

/-- `gas_start` always holds the gas of the last start-marker step processed
before the scan stops (the fold starts from the incoming value). -/
theorem parseLoop_gas_start (P D : Int) (logs : List Log) (st : St) :
    (parseLoop P D logs st).gas_start =
      (logs.takeWhile (notEnd P D)).foldl
        (fun a l => if l.pc = P ∧ l.depth = D then l.gas else a) st.gas_start := by
  induction logs generalizing st with
  | nil => rfl
  | cons l rest ih =>
    rw [parseLoop]
    by_cases h1 : l.pc = P ∧ l.depth = D
    · rw [stepLog_start P D st l h1,
        List.takeWhile_cons_of_pos (notEnd_true (start_not_end P D l h1)),
        List.foldl_cons, if_pos h1]
      exact ih _
    · by_cases h2 : l.pc = P + 1 ∧ l.depth = D
      · rw [stepLog_end P D st l h1 h2,
          List.takeWhile_cons_of_neg (by simp [notEnd_false h2])]
        rfl
      · obtain ⟨st', hstep, hgs, -, -⟩ := stepLog_nonmarker P D st l h1 h2
        rw [hstep, List.takeWhile_cons_of_pos (notEnd_true h2),
          List.foldl_cons, if_neg h1, ih st', hgs]

/-- When the trace contains no end marker, `gas_end` is never written. -/
theorem parseLoop_gas_end_of_noEnd (P D : Int) (logs : List Log) (st : St)
    (h : ∀ l ∈ logs, ¬(l.pc = P + 1 ∧ l.depth = D)) :
    (parseLoop P D logs st).gas_end = st.gas_end := by
  induction logs generalizing st with
  | nil => rfl
  | cons l rest ih =>
    rw [parseLoop]
    have hl := h l (List.mem_cons_self l rest)
    by_cases h1 : l.pc = P ∧ l.depth = D
    · rw [stepLog_start P D st l h1]
      exact ih _ fun x hx => h x (List.mem_cons_of_mem l hx)
    · obtain ⟨st', hstep, -, hge, -⟩ := stepLog_nonmarker P D st l h1 hl
      rw [hstep, ih st' fun x hx => h x (List.mem_cons_of_mem l hx), hge]

/-- When the trace contains no end marker, the final `monitor` flag records
whether a start marker was seen. -/
theorem parseLoop_monitor_of_noEnd (P D : Int) (logs : List Log) (st : St)
    (h : ∀ l ∈ logs, ¬(l.pc = P + 1 ∧ l.depth = D)) :
    (parseLoop P D logs st).monitor = (st.monitor || logs.any (startMark P D)) := by
  induction logs generalizing st with
  | nil => simp [parseLoop]
  | cons l rest ih =>
    rw [parseLoop]
    have hl := h l (List.mem_cons_self l rest)
    by_cases h1 : l.pc = P ∧ l.depth = D
    · rw [stepLog_start P D st l h1,
        ih _ fun x hx => h x (List.mem_cons_of_mem l hx), List.any_cons,
        startMark_true h1]
      simp
    · obtain ⟨st', hstep, -, -, hmon⟩ := stepLog_nonmarker P D st l h1 hl
      rw [hstep, ih st' fun x hx => h x (List.mem_cons_of_mem l hx), hmon,
        List.any_cons, startMark_false h1]
      simp

/-- Once a trace contains an end marker, the scan `break`s there, so any
steps appended after the trace are never inspected. -/
theorem parseLoop_break_append (P D : Int) (logs ex : List Log) (st : St)
    (h : ∃ l ∈ logs, l.pc = P + 1 ∧ l.depth = D) :
    parseLoop P D (logs ++ ex) st = parseLoop P D logs st := by
  induction logs generalizing st with
  | nil => obtain ⟨l, hl, -⟩ := h; exact absurd hl (by simp)
  | cons l rest ih =>
    rw [List.cons_append, parseLoop, parseLoop]
    cases hstep : stepLog P D st l with
    | cont st' =>
      apply ih
      obtain ⟨x, hx, hxe⟩ := h
      rcases List.mem_cons.mp hx with rfl | hx
      · exfalso
        have h1 : ¬(x.pc = P ∧ x.depth = D) := fun hs => start_not_end P D x hs hxe
        rw [stepLog_end P D st x h1 hxe] at hstep
        exact absurd hstep (by simp)
      · exact ⟨x, hx, hxe⟩
    | stop st' => rfl

/-- While monitoring, the scan adds exactly the gas costs of the
non-call-family steps at depth `D + 1` seen before the next end marker. -/
theorem parseLoop_gas_sum_mon (P D : Int) (logs : List Log) (st : St)
    (hmon : st.monitor = true) :
    (parseLoop P D logs st).gas_sum = st.gas_sum +
      ((((logs.takeWhile (notEnd P D)).filter (childNonCall D)).map
        Log.gasCost).sum) := by
  induction logs generalizing st with
  | nil => simp [parseLoop]
  | cons l rest ih =>
    rw [parseLoop]
    by_cases h1 : l.pc = P ∧ l.depth = D
    · have hne : ¬(l.depth = D + 1 ∧ ¬ l.op ∈ stack_increasers) := by
        rintro ⟨hd, -⟩; rw [h1.2] at hd; omega
      rw [stepLog_start P D st l h1,
        List.takeWhile_cons_of_pos (notEnd_true (start_not_end P D l h1)),
        List.filter_cons_of_neg (by simp [childNonCall_false hne])]
      exact ih _ rfl
    · by_cases h2 : l.pc = P + 1 ∧ l.depth = D
      · rw [stepLog_end P D st l h1 h2,
          List.takeWhile_cons_of_neg (by simp [notEnd_false h2])]
        simp
      · rw [List.takeWhile_cons_of_pos (notEnd_true h2)]
        by_cases h4 : l.depth = D + 1
        · by_cases h5 : l.op ∈ stack_increasers
          · have hne : ¬(l.depth = D + 1 ∧ ¬ l.op ∈ stack_increasers) := by
              rintro ⟨-, hop⟩; exact hop h5
            rw [stepLog_call P D st l h1 h2 hmon h4 h5,
              List.filter_cons_of_neg (by simp [childNonCall_false hne])]
            exact ih _ hmon
          · rw [stepLog_acc P D st l h1 h2 hmon h4 h5,
              List.filter_cons_of_pos (childNonCall_true ⟨h4, h5⟩), List.map_cons,
              List.sum_cons]
            refine Eq.trans (ih { st with
              gas_sum := st.gas_sum + l.gasCost
              activeCalls := (runCalls l.pc l.gas l.depth [] st.activeCalls st.callStack).1
              callStack := (runCalls l.pc l.gas l.depth [] st.activeCalls st.callStack).2 }
              hmon) ?_
            dsimp only
            omega
        · have hne : ¬(l.depth = D + 1 ∧ ¬ l.op ∈ stack_increasers) := by
            rintro ⟨hd, -⟩; exact h4 hd
          rw [stepLog_skip P D st l h1 h2 hmon h4,
            List.filter_cons_of_neg (by simp [childNonCall_false hne])]
          exact ih _ hmon

/-- Starting idle, the scan's accumulated gas is exactly the direct window
gas of the trace. -/
theorem parseLoop_gas_sum (P D : Int) (logs : List Log) (st : St)
    (hmon : st.monitor = false) :
    (parseLoop P D logs st).gas_sum = st.gas_sum + windowDirectGas P D logs := by
  induction logs generalizing st with
  | nil => simp [parseLoop, windowDirectGas, windowSteps]
  | cons l rest ih =>
    rw [parseLoop, windowDirectGas, windowSteps]
    by_cases h1 : l.pc = P ∧ l.depth = D
    · rw [if_pos h1, stepLog_start P D st l h1]
      exact parseLoop_gas_sum_mon P D rest _ rfl
    · rw [if_neg h1]
      by_cases h2 : l.pc = P + 1 ∧ l.depth = D
      · rw [if_pos h2, stepLog_end P D st l h1 h2]
        simp
      · rw [if_neg h2]
        obtain ⟨st', hstep, -, -, hm⟩ := stepLog_nonmarker P D st l h1 h2
        rw [hstep]
        have : st'.monitor = false := hm.trans hmon
        rw [ih st' this]
        have hgs : st'.gas_sum = st.gas_sum := by
          rcases stepLog_nonmarker P D st l h1 h2 with ⟨st'', hstep', -, -, -⟩
          cases hmon' : st.monitor with
          | false => rw [stepLog_idle P D st l h1 h2 hmon'] at hstep
                     cases hstep; rfl
          | true => rw [hmon'] at hmon; exact absurd hmon (by simp)
        rw [hgs, windowDirectGas]

theorem endMark_true {P D : Int} {l : Log} (h : l.pc = P + 1 ∧ l.depth = D) :
    endMark P D l = true := decide_eq_true h

theorem endMark_false {P D : Int} {l : Log} (h : ¬(l.pc = P + 1 ∧ l.depth = D)) :
    endMark P D l = false := decide_eq_false h

/-- When no step matches the start marker, the scan never monitors, so the
whole state stays initial except that the first end marker (if any) still
fires the `break` and records `gas_end`. -/
theorem parseLoop_noStart (P D : Int) (logs : List Log)
    (h : ∀ l ∈ logs, ¬(l.pc = P ∧ l.depth = D)) :
    parseLoop P D logs initSt = { initSt with gas_end := firstEndGas P D logs } := by
  induction logs with
  | nil => rfl
  | cons l rest ih =>
    have h1 : ¬(l.pc = P ∧ l.depth = D) := h l (List.mem_cons_self l rest)
    rw [parseLoop]
    by_cases h2 : l.pc = P + 1 ∧ l.depth = D
    · rw [stepLog_end P D initSt l h1 h2]
      rw [firstEndGas, List.find?_cons_of_pos rest (endMark_true h2)]
      rfl
    · rw [stepLog_idle P D initSt l h1 h2 rfl]
      show parseLoop P D rest initSt = { initSt with gas_end := firstEndGas P D (l :: rest) }
      rw [ih fun x hx => h x (List.mem_cons_of_mem l hx),
        firstEndGas, firstEndGas,
        List.find?_cons_of_neg rest (by simp [endMark_false h2])]

/-- With duplicate-free keys all at depth `D + 1`, at most one frame-map
entry can match a given return program counter. -/
theorem filter_matchKey_le_one (s : CallStack) (rpc D : Int)
    (hnd : (s.map Prod.fst).Nodup)
    (hdep : ∀ a ∈ s.map Prod.fst, a.2 = D + 1) :
    (s.filter fun e => decide (e.1.1 + 1 = rpc)).length ≤ 1 := by
  induction s with
  | nil => simp
  | cons e s ih =>
    rw [List.map_cons, List.nodup_cons] at hnd
    have hdepe : e.1.2 = D + 1 := hdep e.1 (by simp)
    have hdeps : ∀ a ∈ s.map Prod.fst, a.2 = D + 1 := fun a ha =>
      hdep a (by simp [ha] )
    rw [List.filter_cons]
    by_cases hm : e.1.1 + 1 = rpc
    · rw [if_pos (by simpa using hm)]
      have hempty : s.filter (fun x => decide (x.1.1 + 1 = rpc)) = [] := by
        rw [List.filter_eq_nil_iff]
        intro x hx hxm
        have hxm : x.1.1 + 1 = rpc := by simpa using hxm
        have hxd : x.1.2 = D + 1 := hdeps x.1 (List.mem_map_of_mem Prod.fst hx)
        have : x.1 = e.1 := by
          have h1 : x.1.1 = e.1.1 := by omega
          have h2 : x.1.2 = e.1.2 := by rw [hxd, hdepe]
          exact Prod.ext h1 h2
        exact hnd.1 (this ▸ List.mem_map_of_mem Prod.fst hx)
      rw [hempty]
      simp
    · rw [if_neg (by simpa using hm)]
      exact ih hnd.2 hdeps

/-! ### Claim theorems -/

/-- Claim C1 counterexample: the claim asserts `gas_sum` includes the
gas-used of EVERY frame that was both opened and closed inside the window.
On `reopenTrace` the frame keyed `(20, 2)` is opened and closed inside the
window — after the first three steps its descriptor is finalized with
gas-used `40` — but the second call at the same site overwrites that
descriptor with a fresh unfinalized one, so the post-loop pass never sees
the `40`: the program reports `gas_sum = 3` (the direct window gas alone)
where the claim requires `3 + 40 = 43`. -/
theorem claim1_counterexample :
    windowDirectGas 10 1 reopenTrace = 3 ∧
    dictGet (parseLoop 10 1 (reopenTrace.take 3) initSt).callStack (20, 2) =
      some ⟨20, 2, 490, "CALL", some 40, some 21, some 2⟩ ∧
    (parse_struct_logs reopenTrace 10 1).callStack =
      [((20, 2), ⟨20, 2, 400, "CALL", none, none, none⟩)] ∧
    (parse_struct_logs reopenTrace 10 1).gas_sum = 3 ∧
    ¬((parse_struct_logs reopenTrace 10 1).gas_sum = 43) := by
  decide

/-- Claim C1 (amended): for every trace, the reported `gas_sum` (execution
gas) equals the sum of the `gasCost` fields of all non-call-family steps at
depth `D + 1` inside the monitoring window, plus the `gas_used` values still
present in the FINAL frame map (at most one per key): a finalized frame
whose key is re-used by a later call inside the window has its descriptor
overwritten and contributes nothing.  Call-family steps contribute no
`gasCost` directly (they are excluded by the `childNonCall` filter) and
frames still active contribute nothing (`finalizedGas` skips frames without
`gas_used`). -/
theorem claim1_gas_sum_decomposition (logs : List Log) (P D : Int) :
    (parse_struct_logs logs P D).gas_sum =
      windowDirectGas P D logs +
        finalizedGas (parse_struct_logs logs P D).callStack := by
  unfold parse_struct_logs
  dsimp only
  rw [parseLoop_gas_sum P D logs initSt rfl]
  dsimp only [initSt]
  omega

/-- Claim C2: on the literal five-step trace of the specification, the
analysis with `start_pc = 10`, `depth = 1` yields `gas_sum = 40`,
`gas_start = 500`, `gas_end = 440`, exactly one finalized frame keyed
`(21, 2)` with `gas_used = 37`, total gas used `60` and non-execution gas
`20`. -/
theorem claim2_concrete_scenario :
    (parse_struct_logs specTrace 10 1).gas_sum = 40 ∧
    (parse_struct_logs specTrace 10 1).gas_start = 500 ∧
    (parse_struct_logs specTrace 10 1).gas_end = 440 ∧
    (parse_struct_logs specTrace 10 1).callStack =
      [((21, 2), ⟨21, 2, 487, "CALL", some 37, some 22, some 2⟩)] ∧
    gas_total (parse_struct_logs specTrace 10 1) = 60 ∧
    non_execution_gas (parse_struct_logs specTrace 10 1) = 20 := by
  decide

/-- Claim C3 counterexample: the claim asserts `gas_end` stays `0` when no
step matches `(start_pc, depth)`, "since the window closes only while
monitoring".  In the code the end-marker check is NOT gated on `monitor`: on
a trace containing a step at `(start_pc + 1, depth)` but no start marker,
`gas_end` is set to that step's gas (here `77 ≠ 0`). -/
theorem claim3_counterexample :
    (∀ l ∈ endOnlyTrace, ¬(l.pc = 10 ∧ l.depth = 1)) ∧
    (parse_struct_logs endOnlyTrace 10 1).gas_end = 77 ∧
    ¬((parse_struct_logs endOnlyTrace 10 1).gas_end = 0) := by
  decide

/-- Claim C3 (amended): with no step matching `(start_pc, depth)` the
analysis raises no error and returns `gas_sum = 0`, `gas_start = 0` and an
empty frame set; `gas_end` equals the gas of the first step at
`(start_pc + 1, depth)` when the trace contains one (the closing check fires
even when not monitoring), and `0` otherwise. -/
theorem claim3_no_start_defaults (logs : List Log) (P D : Int)
    (h : ∀ l ∈ logs, ¬(l.pc = P ∧ l.depth = D)) :
    (parse_struct_logs logs P D).gas_sum = 0 ∧
    (parse_struct_logs logs P D).gas_start = 0 ∧
    (parse_struct_logs logs P D).callStack = [] ∧
    (parse_struct_logs logs P D).activeCalls = [] ∧
    (parse_struct_logs logs P D).gas_end = firstEndGas P D logs := by
  unfold parse_struct_logs
  rw [parseLoop_noStart P D logs h]
  exact ⟨rfl, rfl, rfl, rfl, rfl⟩

theorem claim3_witness :
    (∀ l ∈ endOnlyTrace, ¬(l.pc = 10 ∧ l.depth = 1)) ∧
    ((parse_struct_logs endOnlyTrace 10 1).gas_sum = 0 ∧
     (parse_struct_logs endOnlyTrace 10 1).gas_start = 0 ∧
     (parse_struct_logs endOnlyTrace 10 1).callStack = [] ∧
     (parse_struct_logs endOnlyTrace 10 1).activeCalls = [] ∧
     (parse_struct_logs endOnlyTrace 10 1).gas_end = firstEndGas 10 1 endOnlyTrace) :=
  ⟨by decide, claim3_no_start_defaults endOnlyTrace 10 1 (by decide)⟩

/-- Claim C4 counterexample: the claim asserts `gas_start` equals the gas of
the FIRST step matching `(start_pc, depth)` and that later matches do not
change it.  The code re-runs the start-marker branch on every match,
overwriting `gas_start`: on a trace with two start markers (gas `500` then
`400`), the result reports `400`, not `500`. -/
theorem claim4_counterexample :
    ((doubleStartTrace.find? (startMark 10 1)).map Log.gas = some 500) ∧
    (parse_struct_logs doubleStartTrace 10 1).gas_start = 400 ∧
    ¬((parse_struct_logs doubleStartTrace 10 1).gas_start = 500) := by
  decide

/-- Claim C4 (amended): `gas_start` equals the remaining gas of the LAST
step matching `(start_pc, depth)` processed before the scan stops (each
matching step overwrites it), and `0` when there is none: it is the fold of
the overwrite update over the steps preceding the first end marker. -/
theorem claim4_gas_start_last (logs : List Log) (P D : Int) :
    (parse_struct_logs logs P D).gas_start =
      (logs.takeWhile (notEnd P D)).foldl
        (fun a l => if l.pc = P ∧ l.depth = D then l.gas else a) 0 := by
  unfold parse_struct_logs
  dsimp only
  exact parseLoop_gas_start P D logs initSt

/-- Claim C5: when the window opens (some step matches `(start_pc, depth)`)
but no step of the trace matches `(start_pc + 1, depth)`, the scan runs to
the end of the trace still monitoring, `gas_end` keeps its silent default
`0`, and the derived total-gas figure equals `gas_start - 0 = gas_start`. -/
theorem claim5_unclosed_window (logs : List Log) (P D : Int)
    (h1 : ∃ l ∈ logs, l.pc = P ∧ l.depth = D)
    (h2 : ∀ l ∈ logs, ¬(l.pc = P + 1 ∧ l.depth = D)) :
    (parse_struct_logs logs P D).gas_end = 0 ∧
    (parse_struct_logs logs P D).monitor = true ∧
    gas_total (parse_struct_logs logs P D) = (parse_struct_logs logs P D).gas_start := by
  have hge : (parse_struct_logs logs P D).gas_end = 0 := by
    unfold parse_struct_logs
    dsimp only
    exact parseLoop_gas_end_of_noEnd P D logs initSt h2
  refine ⟨hge, ?_, ?_⟩
  · unfold parse_struct_logs
    dsimp only
    rw [parseLoop_monitor_of_noEnd P D logs initSt h2]
    obtain ⟨l, hl, hs⟩ := h1
    rw [show initSt.monitor = false from rfl, Bool.false_or, List.any_eq_true]
    exact ⟨l, hl, by simpa using startMark_true hs⟩
  · rw [gas_total, hge]
    omega

theorem claim5_witness :
    ((∃ l ∈ openTrace, l.pc = 10 ∧ l.depth = 1) ∧
     (∀ l ∈ openTrace, ¬(l.pc = 11 ∧ l.depth = 1))) ∧
    ((parse_struct_logs openTrace 10 1).gas_end = 0 ∧
     (parse_struct_logs openTrace 10 1).monitor = true ∧
     gas_total (parse_struct_logs openTrace 10 1) =
       (parse_struct_logs openTrace 10 1).gas_start) :=
  ⟨⟨by decide, by decide⟩, claim5_unclosed_window openTrace 10 1 (by decide) (by decide)⟩

/-- Claim C6: a non-call return step with pc `p1 + 1` (at depth `D + 1`,
inside a scan state) finalizes at most the frame keyed `(p1, D + 1)`: the
binding and the active multiplicity of every sibling key `(p2, D + 1)` with
`p2 ≠ p1` are unchanged, and at most one frame-map entry matches any given
return step's program counter (frame-map keys are unique and all sit at
depth `D + 1`). -/
theorem claim6_sibling_independence (logs : List Log) (P D p1 p2 : Int) (r : Log)
    (st st' : St) (hst : st = parseLoop P D logs initSt)
    (hst' : st' = stepState (stepLog P D st r)) (hne : p1 ≠ p2)
    (hdep : r.depth = D + 1) (hop : ¬ r.op ∈ stack_increasers)
    (hpc : r.pc = p1 + 1) :
    dictGet st'.callStack (p2, D + 1) = dictGet st.callStack (p2, D + 1) ∧
    keyCount st'.activeCalls (p2, D + 1) = keyCount st.activeCalls (p2, D + 1) ∧
    (st.callStack.filter fun e => decide (e.1.1 + 1 = r.pc)).length ≤ 1 := by
  subst hst'
  subst hst
  obtain ⟨hnd, hkd, had⟩ := stInv_reachable P D logs
  have hmk := depth_child_not_marker P D r hdep
  have hk2 : ¬ ((p2, D + 1) : Key).1 + 1 = r.pc := by
    show ¬(p2 + 1 = r.pc)
    omega
  refine ⟨?_, ?_, filter_matchKey_le_one _ r.pc D hnd hkd⟩
  · cases hmon : (parseLoop P D logs initSt).monitor with
    | false => rw [stepLog_idle P D _ r hmk.1 hmk.2 hmon, stepState_cont]
    | true =>
      rw [stepLog_acc P D _ r hmk.1 hmk.2 hmon hdep hop, stepState_cont]
      exact runCalls_dictGet_ne r.pc r.gas r.depth (p2, D + 1) hk2
        (parseLoop P D logs initSt).activeCalls.length
        (parseLoop P D logs initSt).activeCalls le_rfl [] _
  · cases hmon : (parseLoop P D logs initSt).monitor with
    | false => rw [stepLog_idle P D _ r hmk.1 hmk.2 hmon, stepState_cont]
    | true =>
      rw [stepLog_acc P D _ r hmk.1 hmk.2 hmon hdep hop, stepState_cont]
      have h := runCalls_keyCount_ne r.pc r.gas r.depth (p2, D + 1) hk2
        (parseLoop P D logs initSt).activeCalls.length
        (parseLoop P D logs initSt).activeCalls le_rfl [] (parseLoop P D logs initSt).callStack
      rw [h]
      simp [keyCount]

theorem claim6_witness :
    dictGet (stepState (stepLog 10 1 (parseLoop 10 1 siblingTrace initSt)
        siblingReturn)).callStack (30, 2) =
      dictGet (parseLoop 10 1 siblingTrace initSt).callStack (30, 2) ∧
    keyCount (stepState (stepLog 10 1 (parseLoop 10 1 siblingTrace initSt)
        siblingReturn)).activeCalls (30, 2) =
      keyCount (parseLoop 10 1 siblingTrace initSt).activeCalls (30, 2) ∧
    ((parseLoop 10 1 siblingTrace initSt).callStack.filter
      fun e => decide (e.1.1 + 1 = siblingReturn.pc)).length ≤ 1 :=
  claim6_sibling_independence siblingTrace 10 1 20 30 siblingReturn
    (parseLoop 10 1 siblingTrace initSt)
    (stepState (stepLog 10 1 (parseLoop 10 1 siblingTrace initSt) siblingReturn))
    rfl rfl (by decide) (by decide) (by decide) (by decide)

/-- Claim C7 counterexample: the claim asserts each `(pc, depth)` key occurs
at most once among the active frames at every point of the scan.  The code
does not enforce this: a call-family step at a key that is already active
appends a second copy of the key to the active list (overwriting the frame
descriptor in the map).  After scanning `dupKeyTrace`, the key `(20, 2)`
occurs twice among the active keys. -/
theorem claim7_counterexample :
    keyCount (parseLoop 10 1 dupKeyTrace initSt).activeCalls (20, 2) = 2 := by
  decide

/-- Claim C7 (amended): uniqueness holds for the frame MAP, not the active
list: at every point of the scan each `(pc, depth)` key occurs at most once
among the frame descriptors (`call_stack` keys are duplicate-free); a new
call at an active key overwrites that descriptor but may duplicate the key
in the active list. -/
theorem claim7_frame_map_keys_nodup (logs : List Log) (P D : Int) :
    ((parseLoop P D logs initSt).callStack.map Prod.fst).Nodup :=
  (stInv_reachable P D logs).1

/-- Claim C8: once a step matching `(start_pc + 1, depth)` occurs, the scan
`break`s at the first such step, so appending arbitrary further steps to the
trace changes nothing in the result. -/
theorem claim8_break_stops_scan (logs ex : List Log) (P D : Int)
    (h : ∃ l ∈ logs, l.pc = P + 1 ∧ l.depth = D) :
    parse_struct_logs (logs ++ ex) P D = parse_struct_logs logs P D := by
  unfold parse_struct_logs
  rw [parseLoop_break_append P D logs ex initSt h]

theorem claim8_witness :
    (∃ l ∈ specTrace, l.pc = 11 ∧ l.depth = 1) ∧
    parse_struct_logs (specTrace ++ extraSteps) 10 1 =
      parse_struct_logs specTrace 10 1 :=
  ⟨by decide, claim8_break_stops_scan specTrace extraSteps 10 1 (by decide)⟩

/-- Claim C9: while monitoring, a call-family step at depth `D + 1` only
opens a new frame: it appends its key to the active list, installs a fresh
unfinalized descriptor at its own key, leaves every other key's binding
untouched and adds nothing to the accumulator — even when its pc equals an
active frame's call pc + 1, no frame is finalized by it. -/
theorem claim9_call_step_only_opens (P D : Int) (st : St) (l : Log)
    (hmon : st.monitor = true) (hdep : l.depth = D + 1)
    (hop : l.op ∈ stack_increasers) :
    stepLog P D st l = StepRes.cont { st with
      callStack := dictSet st.callStack (l.pc, l.depth)
        ⟨l.pc, l.depth, l.gas, l.op, none, none, none⟩
      activeCalls := st.activeCalls ++ [(l.pc, l.depth)] } ∧
    (∀ k : Key, ¬ k = (l.pc, l.depth) →
      dictGet (stepState (stepLog P D st l)).callStack k = dictGet st.callStack k) ∧
    dictGet (stepState (stepLog P D st l)).callStack (l.pc, l.depth) =
      some ⟨l.pc, l.depth, l.gas, l.op, none, none, none⟩ ∧
    (stepState (stepLog P D st l)).activeCalls = st.activeCalls ++ [(l.pc, l.depth)] ∧
    (stepState (stepLog P D st l)).gas_sum = st.gas_sum := by
  have hmk := depth_child_not_marker P D l hdep
  have hstep := stepLog_call P D st l hmk.1 hmk.2 hmon hdep hop
  refine ⟨hstep, ?_, ?_, ?_, ?_⟩
  · intro k hk
    rw [hstep, stepState_cont]
    exact dictGet_dictSet_ne st.callStack (l.pc, l.depth) k _ hk
  · rw [hstep, stepState_cont]
    exact dictGet_dictSet_self st.callStack (l.pc, l.depth) _
  · rw [hstep, stepState_cont]
  · rw [hstep, stepState_cont]

theorem claim9_witness :
    stepLog 10 1 oneFrameSt callAtReturnPc = StepRes.cont { oneFrameSt with
      callStack := dictSet oneFrameSt.callStack (21, 2)
        ⟨21, 2, 480, "CALL", none, none, none⟩
      activeCalls := oneFrameSt.activeCalls ++ [(21, 2)] } ∧
    dictGet (stepState (stepLog 10 1 oneFrameSt callAtReturnPc)).callStack (20, 2) =
      dictGet oneFrameSt.callStack (20, 2) ∧
    (stepState (stepLog 10 1 oneFrameSt callAtReturnPc)).activeCalls =
      oneFrameSt.activeCalls ++ [(21, 2)] :=
  have h := claim9_call_step_only_opens 10 1 oneFrameSt callAtReturnPc rfl
    (by decide) (by decide)
  ⟨h.1, h.2.1 (20, 2) (by decide), h.2.2.2.1⟩

/-- Claim C10: extracting the step sequence from a decoded trace document
returns `data['result']['structLogs']` when present, otherwise
`data['structLogs']` when present, and produces the missing-field error
exactly when neither is present. -/
theorem claim10_struct_logs_extraction (d : TraceDoc) :
    (∀ sl, d.result.bind ResultObj.structLogs = some sl →
      get_struct_logs_from_file d = Except.ok sl) ∧
    (d.result.bind ResultObj.structLogs = none →
      ∀ sl, d.structLogs = some sl → get_struct_logs_from_file d = Except.ok sl) ∧
    ((∃ e, get_struct_logs_from_file d = Except.error e) ↔
      (d.result.bind ResultObj.structLogs = none ∧ d.structLogs = none)) := by
  obtain ⟨res, sl⟩ := d
  cases res with
  | none =>
    cases sl <;> refine ⟨?_, ?_, ?_⟩ <;> simp [get_struct_logs_from_file]
  | some r =>
    obtain ⟨rsl⟩ := r
    cases rsl <;> cases sl <;> refine ⟨?_, ?_, ?_⟩ <;>
      simp [get_struct_logs_from_file, Option.bind]

theorem claim10_witness :
    get_struct_logs_from_file docResultOnly = Except.ok specTrace :=
  (claim10_struct_logs_extraction docResultOnly).1 specTrace rfl

end StructLog
